import Mathlib

/-!
Verification of the incremental content-addressed indexing and
duplicate-resolution engine of the `rename_archive` repository.

The Python sources are shallowly embedded:
* `scripts/indexer.py` — `file_sha256`, the skip test inside `index_file`,
  `index_file` itself and `walk_and_index`;
* `renamer/index.py` — `files_in_folder` (SQL `LIKE` prefix query) and
  `find_files_by_hash`;
* `renamer/gui.py` — duplicate grouping (`delete_duplicates`), the
  cross-collection duplicate check (`check_library_duplicates`) and the
  deletion loops of the resolution dialogs.

Bytes are `Nat`s, file contents are `List Nat`, SQLite `REAL` modification
times are rationals, and the external SHA-256 primitive (`hashlib.sha256`)
is an arbitrary function `H : List Nat → String`; the incremental
`update`/`hexdigest` protocol of a `hashlib` object is embedded faithfully
(the absorbed message accumulates, the digest is a function of it).
-/

namespace RenameArchive


/-- A byte stream (a Python `bytes` value), one `Nat` per byte. -/
abbrev Bytes := List Nat

/-- State of a `hashlib.sha256()` object: the message absorbed so far.
`update` appends to the absorbed message; `hexdigest` applies the
underlying digest function `H` to it. -/
structure HashState where
  absorbed : Bytes
deriving DecidableEq

/-- Model of `hashlib.sha256()` — fresh hash object, nothing absorbed. -/
def HashState.init : HashState := ⟨[]⟩

/-- Model of `h.update(chunk)` — absorb one chunk. -/
def HashState.update (h : HashState) (chunk : Bytes) : HashState :=
  ⟨h.absorbed ++ chunk⟩

/-- Model of `h.hexdigest()` for digest function `H`. -/
def HashState.hexdigest (H : Bytes → String) (h : HashState) : String :=
  H h.absorbed

/-- The constant `BUF_SIZE = 65536` (indexer.py line 42). -/
def BUF_SIZE : Nat := 65536

/-- The successive results of `f.read(n)` in
`iter(lambda: f.read(BUF_SIZE), b'')`: the stream cut into chunks of at
most `n` bytes (for `n = 0` the Python loop would never terminate; we
return the whole stream as one chunk, a case never exercised since
`BUF_SIZE > 0`). -/
def chunksOf : Nat → Bytes → List Bytes
  | _, [] => []
  | 0, xs => [xs]
  | n + 1, x :: xs => ((x :: xs).take (n + 1)) :: chunksOf (n + 1) ((x :: xs).drop (n + 1))
termination_by _ xs => xs.length
decreasing_by
  simp only [List.drop_succ_cons, List.length_cons, List.length_drop]
  omega

/-- Model of `file_sha256(path)` (indexer.py lines 90–98): stream the file in
`BUF_SIZE` chunks through a SHA-256 object and return the hex digest;
any exception (unreadable file, I/O error mid-read) yields `None`.
The file's readability/content is the `Option Bytes` argument:
`none` models the exceptional case. -/
def file_sha256 (H : Bytes → String) (content : Option Bytes) : Option String :=
  match content with
  | none => none
  | some bs =>
      some (((chunksOf BUF_SIZE bs).foldl HashState.update HashState.init).hexdigest H)

/-! ## Catalog data model (`data/index.db`: tables `files` and `texts`) -/

/-- One row of the `files` table (indexer.py lines 53–65). `needs_ocr` is
stored as the integer `0`/`1`; `mtime` is a SQLite `REAL`, modelled as a
rational. -/
structure FileRow where
  id : Nat
  path : String
  relpath : String
  size : Nat
  mtime : ℚ
  sha256 : Option String
  title : Option String
  authors : Option String
  needs_ocr : Nat
  indexed_at : String
deriving DecidableEq

/-- One row of the `texts` table (indexer.py lines 66–72). The snippet is
a character sequence (Python string slicing acts on characters). -/
structure TextRow where
  file_id : Nat
  block_index : Nat
  text : List Char
deriving DecidableEq

/-- The catalog database: the `files` and `texts` tables, rows in
insertion order. -/
structure Catalog where
  files : List FileRow
  texts : List TextRow
deriving DecidableEq

/-- The skip test of `index_file` (indexer.py lines 169–175): with a prior
row and `force_reindex` false, skip exactly when the stored size equals
the current size and the stored and current mtimes differ by less
than 1.0. -/
def shouldSkip (row : Option FileRow) (forceReindex : Bool) (size : Nat) (mtime : ℚ) : Bool :=
  match row with
  | none => false
  | some r => !forceReindex && (r.size == size && |r.mtime - mtime| < 1)

/-! ## Filesystem model and `index_file` / `walk_and_index` -/

/-- One regular file as `index_file` observes it.  `stat` is
`some (st_size, st_mtime)` or `none` when `path.stat()` raises
(indexer.py lines 159–163).  `content` is the byte stream `open('rb')`
delivers, `none` when reading raises (so `file_sha256` yields `None`).
`meta` is the outcome of `extract_metadata` normalised to
`(title, authors)`, `none` when it raises (lines 178–189).  `parts` and
`needs_ocr` are the outcome of `extract_text_for_index` (line 202);
extraction is an external collaborator, so its per-file result is data
of the model. -/
structure FsFile where
  path : String
  relpath : String
  stat : Option (Nat × ℚ)
  content : Option Bytes
  meta : Option (Option String × Option String)
  parts : List (List Char)
  needs_ocr : Bool
deriving DecidableEq

/-- The lookup `SELECT ... FROM files WHERE path=?` (indexer.py line 169): `path` is
`UNIQUE`, so the lookup is the first (only) row with that path. -/
def Catalog.lookupPath (cat : Catalog) (p : String) : Option FileRow :=
  cat.files.find? (fun r => r.path == p)

/-- The `lastrowid` of an `INSERT` into a table whose `INTEGER PRIMARY KEY`
is left unset: one more than the largest rowid in use. -/
def freshId (files : List FileRow) : Nat :=
  (files.map (·.id)).foldr max 0 + 1

/-- The `texts` insertion loop (indexer.py lines 216–220): enumerate the
blocks, skip falsy (empty) ones, cap each at 5000 characters. -/
def insertBlocks (fid : Nat) (parts : List (List Char)) : List TextRow :=
  (parts.enum.filter (fun ib => ib.2 ≠ [])).map
    (fun ib => ⟨fid, ib.1, ib.2.take 5000⟩)

/-- The `(title, authors)` pair after the `extract_metadata` call and its
exception handler (indexer.py lines 178–200): the extracted pair, or
`(None, None)` when extraction raised. -/
def metaPair (f : FsFile) : Option String × Option String :=
  match f.meta with
  | some ta => ta
  | none => (none, none)

/-- Model of `index_file(root_folder, path, force_reindex)` (indexer.py lines
157–223) against catalog `cat`, returning the updated catalog and the
`(bool, str)` result.  `H` is the SHA-256 digest function, `now` the
`datetime.utcnow().isoformat()` timestamp of this call. -/
def indexFile (H : Bytes → String) (cat : Catalog) (f : FsFile)
    (forceReindex : Bool) (now : String) : Catalog × Bool × String :=
  match f.stat with
  | none => (cat, false, "stat_failed")
  | some (size, mtime) =>
      let row := cat.lookupPath f.path
      if shouldSkip row forceReindex size mtime then
        (cat, false, "skipped")
      else
        let sha := file_sha256 H f.content
        let title := (metaPair f).1
        let authors := (metaPair f).2
        let parts := f.parts.take 10
        match row with
        | some r =>
            let fid := r.id
            let files' := cat.files.map (fun x =>
              if x.id = fid then
                { x with relpath := f.relpath, size := size, mtime := mtime,
                         sha256 := sha, title := title, authors := authors,
                         needs_ocr := if f.needs_ocr then 1 else 0,
                         indexed_at := now }
              else x)
            let texts' := cat.texts.filter (fun t => t.file_id ≠ fid)
            (⟨files', texts' ++ insertBlocks fid parts⟩, true, "indexed")
        | none =>
            let fid := freshId cat.files
            let newRow : FileRow :=
              ⟨fid, f.path, f.relpath, size, mtime, sha, title, authors,
               if f.needs_ocr then 1 else 0, now⟩
            (⟨cat.files ++ [newRow], cat.texts ++ insertBlocks fid parts⟩,
             true, "indexed")

/-- Model of `walk_and_index` (indexer.py lines 226–247): run `index_file` over the
enumerated file list, collecting each file's `(ok, msg)` result.  The
thread pool's work units are independent and keyed by path; the model
processes them in list order. -/
def walkAndIndex (H : Bytes → String) (cat : Catalog) (files : List FsFile)
    (forceReindex : Bool) (now : String) : Catalog × List (Bool × String) :=
  match files with
  | [] => (cat, [])
  | f :: rest =>
      let (cat', ok, msg) := indexFile H cat f forceReindex now
      let (catEnd, results) := walkAndIndex H cat' rest forceReindex now
      (catEnd, (ok, msg) :: results)

/-- Well-formedness the SQLite schema enforces: `path` is `UNIQUE` and
`id` is the primary key. -/
def Catalog.WF (cat : Catalog) : Prop :=
  (cat.files.map (·.path)).Nodup ∧ (cat.files.map (·.id)).Nodup

instance (cat : Catalog) : Decidable cat.WF := by
  unfold Catalog.WF; infer_instance

/-- The row-update function of the `UPDATE` branch (indexer.py lines
207–211): rows whose `id` matches are overwritten (the `path` column is
not touched), others are untouched. -/
def updateRow (f : FsFile) (H : Bytes → String) (now : String) (sz : Nat) (mt : ℚ)
    (fid : Nat) (x : FileRow) : FileRow :=
  if x.id = fid then
    { x with relpath := f.relpath, size := sz, mtime := mt,
             sha256 := file_sha256 H f.content, title := (metaPair f).1,
             authors := (metaPair f).2,
             needs_ocr := if f.needs_ocr then 1 else 0, indexed_at := now }
  else x

/-! ## Behaviour of `walk_and_index` -/

/-- A file is *ready* in a catalog when its stored record matches its
current stat within the 1-second tolerance, so a subsequent
non-forced `index_file` will skip it. -/
def Ready (cat : Catalog) (f : FsFile) : Prop :=
  ∀ sz mt, f.stat = some (sz, mt) →
    ∃ r, cat.lookupPath f.path = some r ∧ r.size = sz ∧ |r.mtime - mt| < 1

/-! ## Catalog read helpers (`renamer/index.py`)

`files_in_folder` issues `SELECT ... WHERE path LIKE ? ORDER BY path`
with the parameter `str(folder) + os.sep + '%'`.  SQLite's `LIKE` is
modelled by `likeMatch`: `%` matches any sequence, `_` any single
character, and ordinary characters compare case-insensitively on the
ASCII range (SQLite's default `LIKE` folds only A–Z, exactly
`Char.toLower`'s range).  The database file may be absent
(`db_exists()`), hence the `Option Catalog` argument. -/

/-- SQLite `LIKE` pattern matching, recursing on the pattern: a `%`
matches when the rest of the pattern matches some suffix of the text. -/
def likeMatch : List Char → List Char → Bool
  | [], ts => ts.isEmpty
  | p :: ps, ts =>
      if p = '%' then ts.tails.any (fun suf => likeMatch ps suf)
      else
        match ts with
        | [] => false
        | t :: ts' => (if p = '_' then true else p.toLower == t.toLower) && likeMatch ps ts'

/-- The separator `os.sep` on a POSIX system. -/
def os_sep : String := "/"

/-- Insertion of a row into a path-sorted list (for `ORDER BY path`). -/
def insertSorted (r : FileRow) : List FileRow → List FileRow
  | [] => [r]
  | x :: xs => if r.path ≤ x.path then r :: x :: xs else x :: insertSorted r xs

/-- Sorting for `ORDER BY path`. -/
def orderByPath : List FileRow → List FileRow
  | [] => []
  | x :: xs => insertSorted x (orderByPath xs)

/-- Model of `files_in_folder(folder)` (renamer/index.py lines 24–45): no database
file means no rows; otherwise the rows whose `path` matches the `LIKE`
pattern `folder + os.sep + '%'`, ordered by path. -/
def files_in_folder (db : Option Catalog) (folder : String) : List FileRow :=
  match db with
  | none => []
  | some cat =>
      orderByPath (cat.files.filter
        (fun r => likeMatch ((folder ++ os_sep) ++ "%").toList r.path.toList))

/-- Model of `find_files_by_hash(sha256)` (renamer/index.py lines 48–60): no
database file means `[]`; otherwise the rows whose `sha256` column
equals the argument (a `NULL` column never equals a string). -/
def find_files_by_hash (db : Option Catalog) (sha : String) : List FileRow :=
  match db with
  | none => []
  | some cat => cat.files.filter (fun r => r.sha256 == some sha)

/-! ## Duplicate grouping (`renamer/gui.py`, `delete_duplicates`)

The dialog groups the scanned entries by SHA-256: a Python dict maps
each truthy hash to the list of `(orig, sz)` pairs appended in scan
order (`groups.setdefault(fh, []).append((orig, sz))`), and only groups
with more than one member survive (`len(items) > 1`).  The dict is an
association list in key-insertion order. -/

/-- One element of `self.entries`:
`(orig, disp, new, fh, sz, title, author)`. -/
structure Entry where
  orig : String
  disp : String
  newName : String
  fh : Option String
  sz : Nat
  title : Option String
  author : Option String
deriving DecidableEq

/-- One dict item: a hash and its `(orig, sz)` members. -/
abbrev Group := String × List (String × Nat)

/-- The dict operation `groups.setdefault(h, []).append(v)` on an insertion-ordered dict. -/
def addToGroups (gs : List Group) (h : String) (v : String × Nat) : List Group :=
  if gs.any (fun g => g.1 == h) then
    gs.map (fun g => if g.1 == h then (g.1, g.2 ++ [v]) else g)
  else gs ++ [(h, [v])]

/-- One iteration of the grouping loop: entries with a falsy hash
(`None` or the empty string) are skipped (`if not fh: continue`). -/
def groupStep (gs : List Group) (e : Entry) : List Group :=
  match e.fh with
  | none => gs
  | some h => if h == "" then gs else addToGroups gs h (e.orig, e.sz)

/-- The `groups` dict after the loop (gui.py lines 1151–1155). -/
def buildGroups (entries : List Entry) : List Group :=
  entries.foldl groupStep []

/-- The filter `dup_groups` (gui.py line 1156): only groups with `> 1` member. -/
def dup_groups (entries : List Entry) : List Group :=
  (buildGroups entries).filter (fun g => g.2.length > 1)

/-- The `(orig, sz)` pairs of the entries carrying hash `h`, in order. -/
def groupItems (entries : List Entry) (h : String) : List (String × Nat) :=
  (entries.filter (fun e => e.fh == some h)).map (fun e => (e.orig, e.sz))

/-- The members of the dict entry for `h`, if present. -/
def lookupGroup (gs : List Group) (h : String) : Option (List (String × Nat)) :=
  (gs.find? (fun g => g.1 == h)).map (·.2)

/-- Append new members to an optional existing member list. -/
def extendGroup : Option (List (String × Nat)) → List (String × Nat) →
    Option (List (String × Nat))
  | o, [] => o
  | o, l => some (o.getD [] ++ l)

/-! ## Cross-collection duplicate check (`check_library_duplicates`)

For each local file with a hash, the GUI queries `find_files_by_hash`
and keeps only matches whose `os.path.normpath(...).lower()` differs
from the local path's (gui.py lines 339–352).  `normpath` is the POSIX
normalization (collapse separators, drop `.`, resolve `..`); `lower()`
is modelled by `Char.toLower` (ASCII folding, enough for the ASCII
paths modelled here). -/

/-- Model of `path.split('/')`, keeping empty components. -/
def splitSep : List Char → List (List Char)
  | [] => [[]]
  | c :: cs =>
      let r := splitSep cs
      if c = '/' then [] :: r
      else (c :: r.headD []) :: r.tail

/-- The `initial_slashes` count of `posixpath.normpath`: 2 for exactly
two leading separators, else 1 for at least one, else 0. -/
def initialSlashes : List Char → Nat
  | '/' :: '/' :: '/' :: _ => 1
  | '/' :: '/' :: _ => 2
  | '/' :: _ => 1
  | _ => 0

/-- The component loop of `posixpath.normpath`: drop empty and `.`
components, resolve `..` against the accumulated components. -/
def normComps (ini : Nat) (comps : List (List Char)) : List (List Char) :=
  comps.foldl (fun acc comp =>
    if comp = [] ∨ comp = ['.'] then acc
    else if comp ≠ ['.', '.'] ∨ (ini = 0 ∧ acc = [])
        ∨ (acc ≠ [] ∧ acc.getLast? = some ['.', '.']) then acc ++ [comp]
    else if acc ≠ [] then acc.dropLast
    else acc) []

/-- Model of `posixpath.normpath`. -/
def normpath (p : String) : String :=
  let cs := p.toList
  if cs = [] then (".")
  else
    let ini := initialSlashes cs
    let joined := List.replicate ini '/'
      ++ List.intercalate ['/'] (normComps ini (splitSep cs))
    if joined = [] then (".") else String.mk joined

/-- Python `str.lower()` on the ASCII range. -/
def pyLower (s : String) : String := String.mk (s.toList.map Char.toLower)

/-- The key `os.path.normpath(p).lower()` — the comparison key of gui.py lines
346–347. -/
def normKey (p : String) : String := pyLower (normpath p)

/-- The `remotes` list for one local file (gui.py lines 343–349): the
catalog matches for its hash whose normalized, case-folded path differs
from the local one. -/
def remotesFor (db : Option Catalog) (fh : String) (localPath : String) :
    List FileRow :=
  (find_files_by_hash db fh).filter
    (fun m => !(normKey m.path == normKey localPath))

/-! ## Deletion loops of the resolution dialogs (`gui.py`)

Both `check_library_duplicates.apply` (lines 422–448) and
`delete_duplicates.on_apply` (lines 1245–1253) run, per selected path:
`try: if os.path.exists(p): os.remove(p); deleted += 1 / except:
errors.append(...)`, continuing with the remaining paths either way and
reporting the collected errors together at the end. -/

/-- The filesystem as the deletion loop observes it: the set of present
paths, and the paths whose removal raises (permissions, locks). -/
structure FileSys where
  present : List String
  removeFails : List String
deriving DecidableEq

/-- Model of `os.path.exists(p)`. -/
def osExists (fs : FileSys) (p : String) : Bool := decide (p ∈ fs.present)

/-- Successful `os.remove(p)`. -/
def removeFile (fs : FileSys) (p : String) : FileSys :=
  ⟨fs.present.filter (fun q => q ≠ p), fs.removeFails⟩

/-- The deletion loop: returns the final filesystem, the deleted count
and the collected errors (the failing paths, in loop order). -/
def applyDeletions (fs : FileSys) : List String → FileSys × Nat × List String
  | [] => (fs, 0, [])
  | p :: rest =>
      if osExists fs p then
        if p ∈ fs.removeFails then
          let r := applyDeletions fs rest
          (r.1, r.2.1, p :: r.2.2)
        else
          let r := applyDeletions (removeFile fs p) rest
          (r.1, r.2.1 + 1, r.2.2)
      else applyDeletions fs rest

/-! ## Concrete instances for the closed checks -/

/-- A stand-in digest function for concrete runs. -/
def H0 : Bytes → String := fun _ => "h0"

/-- A digest function injective on the streams compared below. -/
def Hcount : Bytes → String := fun bs => String.mk (bs.map (fun _ => 'a'))

/-- A statable, readable-stat file with unreadable bytes. -/
def fsC4 : FsFile :=
  ⟨"/lib/a.pdf", "a.pdf", some (7, (100 : ℚ)), none, some (some ("T"), none),
   [['h', 'i']], false⟩

/-- A plain file for the idempotence run. -/
def fsA : FsFile := ⟨"/r/a.txt", "a.txt", some (3, (5 : ℚ)), none, none, [], false⟩

/-- A file with several text blocks (one empty) and unreadable bytes. -/
def fs9 : FsFile :=
  ⟨"/r/b.txt", "b.txt", some (4, (7 : ℚ)), none, some (none, none),
   [['x'], [], ['y']], false⟩

/-- Entries A, B, C with fingerprints h1, h1, h2. -/
def eA : Entry := ⟨"/d/A", "A", "A", some ("h1"), 1, none, none⟩

def eB : Entry := ⟨"/d/B", "B", "B", some ("h1"), 2, none, none⟩

def eC : Entry := ⟨"/d/C", "C", "C", some ("h2"), 3, none, none⟩

/-- A catalog row spelling the reference copy with a doubled slash. -/
def rowR : FileRow := ⟨1, "/R//Books/a.txt", "a.txt", 3, 0, some ("h1"), none, none, 0, ""⟩

def catR : Catalog := ⟨[rowR], []⟩

/-- A filesystem with one present file and nothing failing. -/
def fs7 : FileSys := ⟨["/d/b"], []⟩

/-- A row under `/data/foo` (for the wildcard-free LIKE check). -/
def rowF : FileRow := ⟨1, "/data/foo/x", "x", 1, 0, none, none, none, 0, ""⟩

def catF : Catalog := ⟨[rowF], []⟩

/-- A row whose path matches `/data/f_o/%` only through the `_`
wildcard. -/
def rowW : FileRow := ⟨1, "/data/fXo/a", "a", 1, 0, none, none, none, 0, ""⟩

def catW : Catalog := ⟨[rowW], []⟩

/-- Concatenating the chunks recovers the stream. -/
theorem chunksOf_flatten (n : Nat) (xs : Bytes) : (chunksOf n xs).flatten = xs := by
  induction n, xs using chunksOf.induct with
  | case1 => simp [chunksOf]
  | case2 xs => simp [chunksOf]
  | case3 n x xs ih =>
      rw [chunksOf]
      simp only [List.flatten_cons, ih, List.take_append_drop]

/-- Folding `update` over a chunk list absorbs exactly the concatenation. -/
theorem foldl_update_absorbed (cs : List Bytes) (h : HashState) :
    (cs.foldl HashState.update h).absorbed = h.absorbed ++ cs.flatten := by
  induction cs generalizing h with
  | nil => simp
  | cons c cs ih => simp [HashState.update, ih, List.append_assoc]

/-- The streamed digest is the digest of the full byte stream. -/
theorem file_sha256_eq_hash (H : Bytes → String) (bs : Bytes) :
    file_sha256 H (some bs) = some (H bs) := by
  simp [file_sha256, HashState.hexdigest, foldl_update_absorbed, HashState.init,
    chunksOf_flatten]

/-! ## Helper lemmas about list search -/

/-- Searching with `find?` commutes with a map that does not change the predicate's
verdict on any element. -/
theorem find?_map_of_pred {α : Type} (g : α → α) (q : α → Bool) (l : List α)
    (h : ∀ x ∈ l, q (g x) = q x) :
    (l.map g).find? q = (l.find? q).map g := by
  induction l with
  | nil => rfl
  | cons x xs ih =>
      have hx := h x (by simp)
      cases hq : q x with
      | true =>
          simp [List.find?_cons_of_pos, hq, hx]
      | false =>
          rw [List.map_cons, List.find?_cons_of_neg _ (by simp [hx, hq]),
            List.find?_cons_of_neg _ (by simp [hq])]
          exact ih (fun y hy => h y (by simp [hy]))

/-- Every element is bounded by the running maximum. -/
theorem le_foldr_max (l : List Nat) : ∀ x ∈ l, x ≤ l.foldr max 0 := by
  induction l with
  | nil => simp
  | cons a as ih =>
      intro x hx
      rcases List.mem_cons.mp hx with h | h
      · subst h; exact le_max_left _ _
      · exact le_trans (ih x h) (le_max_right _ _)

/-! ## Behaviour of `index_file` -/

/-- Unfolded form of `indexFile` once the skip test failed and no prior
row exists (the `INSERT` branch, indexer.py lines 212–220). -/
theorem indexFile_insert (H : Bytes → String) (cat : Catalog) (f : FsFile)
    (force : Bool) (now : String) (sz : Nat) (mt : ℚ)
    (hstat : f.stat = some (sz, mt))
    (hnoskip : shouldSkip (cat.lookupPath f.path) force sz mt = false)
    (hrow : cat.lookupPath f.path = none) :
    indexFile H cat f force now =
      (⟨cat.files ++ [⟨freshId cat.files, f.path, f.relpath, sz, mt,
          file_sha256 H f.content, (metaPair f).1, (metaPair f).2,
          if f.needs_ocr then 1 else 0, now⟩],
        cat.texts ++ insertBlocks (freshId cat.files) (f.parts.take 10)⟩,
       true, "indexed") := by
  rw [indexFile, hstat]
  simp only [hrow, hnoskip]
  rfl

/-- Unfolded form of `indexFile` once the skip test failed and a prior
row exists (the `UPDATE` + `DELETE`/`INSERT` branch, indexer.py lines
207–220). -/
theorem indexFile_update (H : Bytes → String) (cat : Catalog) (f : FsFile)
    (force : Bool) (now : String) (sz : Nat) (mt : ℚ) (r : FileRow)
    (hstat : f.stat = some (sz, mt))
    (hnoskip : shouldSkip (cat.lookupPath f.path) force sz mt = false)
    (hrow : cat.lookupPath f.path = some r) :
    indexFile H cat f force now =
      (⟨cat.files.map (updateRow f H now sz mt r.id),
        cat.texts.filter (fun t => t.file_id ≠ r.id)
          ++ insertBlocks r.id (f.parts.take 10)⟩,
       true, "indexed") := by
  rw [indexFile, hstat]
  rw [hrow] at hnoskip
  simp only [hrow, hnoskip, Bool.false_eq_true, if_false]
  rfl

/-- The map `updateRow` never changes the `path` column. -/
theorem updateRow_path (f : FsFile) (H : Bytes → String) (now : String)
    (sz : Nat) (mt : ℚ) (fid : Nat) (x : FileRow) :
    (updateRow f H now sz mt fid x).path = x.path := by
  unfold updateRow; split <;> rfl

/-- The map `updateRow` never changes the `id` column. -/
theorem updateRow_id (f : FsFile) (H : Bytes → String) (now : String)
    (sz : Nat) (mt : ℚ) (fid : Nat) (x : FileRow) :
    (updateRow f H now sz mt fid x).id = x.id := by
  unfold updateRow; split <;> rfl

/-- When the skip test fails, `index_file` reports success and leaves a
row for the path carrying the current stat, the streamed fingerprint and
the extracted metadata. -/
theorem indexFile_processed (H : Bytes → String) (cat : Catalog) (f : FsFile)
    (force : Bool) (now : String) (sz : Nat) (mt : ℚ)
    (hstat : f.stat = some (sz, mt))
    (hnoskip : shouldSkip (cat.lookupPath f.path) force sz mt = false) :
    ∃ r, ((indexFile H cat f force now).1).lookupPath f.path = some r ∧
      (indexFile H cat f force now).2 = (true, "indexed") ∧
      r.size = sz ∧ r.mtime = mt ∧
      r.sha256 = file_sha256 H f.content ∧
      r.title = (metaPair f).1 ∧ r.authors = (metaPair f).2 := by
  cases hrow : cat.lookupPath f.path with
  | none =>
      rw [indexFile_insert H cat f force now sz mt hstat hnoskip hrow]
      refine ⟨⟨freshId cat.files, f.path, f.relpath, sz, mt, file_sha256 H f.content,
        (metaPair f).1, (metaPair f).2, if f.needs_ocr then 1 else 0, now⟩,
        ?_, rfl, rfl, rfl, rfl, rfl, rfl⟩
      unfold Catalog.lookupPath at hrow ⊢
      rw [List.find?_append, hrow]
      simp
  | some r =>
      rw [indexFile_update H cat f force now sz mt r hstat hnoskip hrow]
      have hpath : ∀ x ∈ cat.files,
          ((fun y : FileRow => y.path == f.path) (updateRow f H now sz mt r.id x))
            = ((fun y : FileRow => y.path == f.path) x) := by
        intro x _
        simp [updateRow_path]
      refine ⟨updateRow f H now sz mt r.id r, ?_, rfl, ?_, ?_, ?_, ?_, ?_⟩
      · unfold Catalog.lookupPath at hrow ⊢
        rw [find?_map_of_pred _ _ _ hpath, hrow]
        rfl
      all_goals simp [updateRow]

/-- When the prior record matches the current stat within tolerance and
`force_reindex` is off, `index_file` is a pure skip: the catalog is
untouched and the result is `(False, 'skipped')`. -/
theorem indexFile_skip (H : Bytes → String) (cat : Catalog) (f : FsFile)
    (now : String) (sz : Nat) (mt : ℚ) (r : FileRow)
    (hstat : f.stat = some (sz, mt))
    (hrow : cat.lookupPath f.path = some r)
    (hsz : r.size = sz) (hmt : |r.mtime - mt| < 1) :
    indexFile H cat f false now = (cat, false, "skipped") := by
  rw [indexFile, hstat]
  simp [hrow, shouldSkip, hsz, hmt]

/-- Running `index_file` leaves the rows of every other path untouched. -/
theorem indexFile_lookup_ne (H : Bytes → String) (cat : Catalog) (f : FsFile)
    (force : Bool) (now : String) (p : String)
    (hids : (cat.files.map (·.id)).Nodup)
    (hne : p ≠ f.path) :
    ((indexFile H cat f force now).1).lookupPath p = cat.lookupPath p := by
  cases hstat : f.stat with
  | none => rw [indexFile, hstat]
  | some szmt =>
      obtain ⟨sz, mt⟩ := szmt
      cases hskip : shouldSkip (cat.lookupPath f.path) force sz mt with
      | true =>
          rw [indexFile, hstat]
          simp [hskip]
      | false =>
          cases hrow : cat.lookupPath f.path with
          | none =>
              rw [indexFile_insert H cat f force now sz mt hstat hskip hrow]
              unfold Catalog.lookupPath
              rw [List.find?_append]
              have hsingle : (([⟨freshId cat.files, f.path, f.relpath, sz, mt,
                  file_sha256 H f.content, (metaPair f).1, (metaPair f).2,
                  if f.needs_ocr then 1 else 0, now⟩] : List FileRow).find?
                    (fun r => r.path == p)) = none := by
                rw [List.find?_cons_of_neg _ ?_, List.find?_nil]
                simp only [beq_iff_eq]
                intro h
                exact hne h.symm
              rw [hsingle]
              cases cat.files.find? (fun r => r.path == p) <;> rfl
          | some r =>
              rw [indexFile_update H cat f force now sz mt r hstat hskip hrow]
              unfold Catalog.lookupPath
              have hpath : ∀ x ∈ cat.files,
                  ((fun y : FileRow => y.path == p) (updateRow f H now sz mt r.id x))
                    = ((fun y : FileRow => y.path == p) x) := by
                intro x _
                simp [updateRow_path]
              rw [find?_map_of_pred _ _ _ hpath]
              cases hfind : cat.files.find? (fun y => y.path == p) with
              | none => rfl
              | some x =>
                  have hxmem := List.mem_of_find?_eq_some hfind
                  have hxp : x.path = p := by
                    have := List.find?_some hfind
                    simpa using this
                  have hrmem := List.mem_of_find?_eq_some hrow
                  have hrp : r.path = f.path := by
                    have := List.find?_some hrow
                    simpa using this
                  have hxid : x.id ≠ r.id := by
                    intro hid
                    have := List.inj_on_of_nodup_map hids hxmem hrmem hid
                    rw [this, hrp] at hxp
                    exact hne hxp.symm
                  simp [updateRow, hxid]

/-- Running `index_file` preserves the schema's uniqueness invariants. -/
theorem indexFile_WF (H : Bytes → String) (cat : Catalog) (f : FsFile)
    (force : Bool) (now : String) (hwf : cat.WF) :
    ((indexFile H cat f force now).1).WF := by
  obtain ⟨hpaths, hids⟩ := hwf
  cases hstat : f.stat with
  | none => rw [indexFile, hstat]; exact ⟨hpaths, hids⟩
  | some szmt =>
      obtain ⟨sz, mt⟩ := szmt
      cases hskip : shouldSkip (cat.lookupPath f.path) force sz mt with
      | true =>
          rw [indexFile, hstat]
          simp only [hskip, if_true]
          exact ⟨hpaths, hids⟩
      | false =>
          cases hrow : cat.lookupPath f.path with
          | none =>
              rw [indexFile_insert H cat f force now sz mt hstat hskip hrow]
              have hnp : f.path ∉ cat.files.map (·.path) := by
                intro hmem
                obtain ⟨x, hx, hxp⟩ := List.mem_map.mp hmem
                have := List.find?_eq_none.mp hrow x hx
                simp [hxp] at this
              have hni : freshId cat.files ∉ cat.files.map (·.id) := by
                intro hmem
                have := le_foldr_max _ _ hmem
                unfold freshId at this
                omega
              constructor
              · rw [List.map_append]
                refine List.Nodup.append hpaths (by simp) ?_
                intro a ha hb
                simp only [List.map_cons, List.map_nil, List.mem_singleton] at hb
                exact hnp (hb ▸ ha)
              · rw [List.map_append]
                refine List.Nodup.append hids (by simp) ?_
                intro a ha hb
                simp only [List.map_cons, List.map_nil, List.mem_singleton] at hb
                exact hni (hb ▸ ha)
          | some r =>
              rw [indexFile_update H cat f force now sz mt r hstat hskip hrow]
              constructor
              · have hmap : (cat.files.map (updateRow f H now sz mt r.id)).map (·.path)
                    = cat.files.map (·.path) := by
                  rw [List.map_map]
                  exact List.map_congr_left (fun x _ => updateRow_path ..)
                rw [show (Catalog.mk (cat.files.map (updateRow f H now sz mt r.id))
                    (cat.texts.filter (fun t => t.file_id ≠ r.id)
                      ++ insertBlocks r.id (f.parts.take 10))).files
                    = cat.files.map (updateRow f H now sz mt r.id) from rfl, hmap]
                exact hpaths
              · have hmap : (cat.files.map (updateRow f H now sz mt r.id)).map (·.id)
                    = cat.files.map (·.id) := by
                  rw [List.map_map]
                  exact List.map_congr_left (fun x _ => updateRow_id ..)
                rw [show (Catalog.mk (cat.files.map (updateRow f H now sz mt r.id))
                    (cat.texts.filter (fun t => t.file_id ≠ r.id)
                      ++ insertBlocks r.id (f.parts.take 10))).files
                    = cat.files.map (updateRow f H now sz mt r.id) from rfl, hmap]
                exact hids

/-- After any `index_file` call (skip, insert or update), the file is
ready. -/
theorem indexFile_ready (H : Bytes → String) (cat : Catalog) (f : FsFile)
    (force : Bool) (now : String) :
    Ready (indexFile H cat f force now).1 f := by
  intro sz mt hstat
  cases hskip : shouldSkip (cat.lookupPath f.path) force sz mt with
  | true =>
      cases hrow : cat.lookupPath f.path with
      | none => rw [hrow] at hskip; exact absurd hskip (by simp [shouldSkip])
      | some r =>
          rw [hrow] at hskip
          have hcond : r.size = sz ∧ |r.mtime - mt| < 1 := by
            simp only [shouldSkip, Bool.and_eq_true, beq_iff_eq, decide_eq_true_eq,
              Bool.not_eq_true'] at hskip
            exact ⟨hskip.2.1, by simpa using hskip.2.2⟩
          have hres : (indexFile H cat f force now).1 = cat := by
            rw [indexFile, hstat]
            simp [hrow, hskip]
          rw [hres]
          exact ⟨r, hrow, hcond⟩
  | false =>
      obtain ⟨r, hlook, _, hsz, hmt, _⟩ := indexFile_processed H cat f force now sz mt hstat hskip
      exact ⟨r, hlook, hsz, by rw [hmt]; simp⟩

/-- The whole walk preserves the schema invariants. -/
theorem walkAndIndex_WF (H : Bytes → String) (cat : Catalog) (files : List FsFile)
    (force : Bool) (now : String) (hwf : cat.WF) :
    ((walkAndIndex H cat files force now).1).WF := by
  induction files generalizing cat with
  | nil => exact hwf
  | cons f rest ih =>
      rw [walkAndIndex]
      exact ih _ (indexFile_WF H cat f force now hwf)

/-- The walk leaves the rows of paths it never visits untouched. -/
theorem walkAndIndex_lookup_ne (H : Bytes → String) (cat : Catalog)
    (files : List FsFile) (force : Bool) (now : String) (p : String)
    (hwf : cat.WF) (hnp : ∀ f ∈ files, p ≠ f.path) :
    ((walkAndIndex H cat files force now).1).lookupPath p = cat.lookupPath p := by
  induction files generalizing cat with
  | nil => rfl
  | cons f rest ih =>
      rw [walkAndIndex]
      rw [ih _ (indexFile_WF H cat f force now hwf)
        (fun g hg => hnp g (by simp [hg]))]
      exact indexFile_lookup_ne H cat f force now p hwf.2 (hnp f (by simp))

/-- After one walk over distinct statable paths, every visited file is
ready. -/
theorem walkAndIndex_ready (H : Bytes → String) (cat : Catalog)
    (files : List FsFile) (force : Bool) (now : String)
    (hwf : cat.WF) (hpaths : (files.map (·.path)).Nodup) :
    ∀ f ∈ files, Ready ((walkAndIndex H cat files force now).1) f := by
  induction files generalizing cat with
  | nil => intro f hf; cases hf
  | cons g rest ih =>
      intro f hf
      rw [walkAndIndex]
      have hwf' : ((indexFile H cat g force now).1).WF := indexFile_WF H cat g force now hwf
      rcases List.mem_cons.mp hf with h | h
      · subst h
        intro sz mt hstat
        have hready := indexFile_ready H cat f force now sz mt hstat
        obtain ⟨r, hlook, hsz, hmt⟩ := hready
        refine ⟨r, ?_, hsz, hmt⟩
        rw [walkAndIndex_lookup_ne H _ rest force now f.path hwf' ?_]
        · exact hlook
        · intro g hg heq
          have : f.path ∈ rest.map (·.path) := heq ▸ List.mem_map_of_mem _ hg
          simp only [List.map_cons, List.nodup_cons] at hpaths
          exact hpaths.1 this
      · exact ih _ hwf' (by simp only [List.map_cons, List.nodup_cons] at hpaths; exact hpaths.2) f h

/-- When every file is ready and statable, a non-forced walk is a pure
skip: the catalog is untouched and every per-file result is
`(False, 'skipped')`. -/
theorem walkAndIndex_all_skip (H : Bytes → String) (cat : Catalog)
    (files : List FsFile) (now : String)
    (hready : ∀ f ∈ files, Ready cat f)
    (hstat : ∀ f ∈ files, f.stat.isSome) :
    walkAndIndex H cat files false now
      = (cat, files.map (fun _ => (false, "skipped"))) := by
  induction files with
  | nil => rfl
  | cons f rest ih =>
      obtain ⟨szmt, hszmt⟩ := Option.isSome_iff_exists.mp (hstat f (by simp))
      obtain ⟨sz, mt⟩ := szmt
      obtain ⟨r, hlook, hsz, hmt⟩ := hready f (by simp) sz mt hszmt
      rw [walkAndIndex, indexFile_skip H cat f now sz mt r hszmt hlook hsz hmt]
      dsimp only
      rw [ih (fun g hg => hready g (by simp [hg])) (fun g hg => hstat g (by simp [hg]))]
      simp

/-- C2: a second non-forced walk over the same unchanged tree (distinct
paths, all statable) skips every file — zero processed — and leaves the
catalog exactly as the first walk left it. -/
theorem indexTree_idempotent (H : Bytes → String) (cat₀ : Catalog)
    (files : List FsFile) (now₁ now₂ : String)
    (hwf : cat₀.WF)
    (hpaths : (files.map (·.path)).Nodup)
    (hstat : ∀ f ∈ files, f.stat.isSome) :
    (walkAndIndex H (walkAndIndex H cat₀ files false now₁).1 files false now₂).1
      = (walkAndIndex H cat₀ files false now₁).1
    ∧ (walkAndIndex H (walkAndIndex H cat₀ files false now₁).1 files false now₂).2
      = files.map (fun _ => (false, "skipped")) := by
  have hready := walkAndIndex_ready H cat₀ files false now₁ hwf hpaths
  have hrun2 := walkAndIndex_all_skip H (walkAndIndex H cat₀ files false now₁).1
    files now₂ hready hstat
  rw [hrun2]
  exact ⟨rfl, rfl⟩

/-! ## Text-block replacement (table `texts`) -/

/-- Every row inserted by the block loop carries the file's id. -/
theorem insertBlocks_file_id (fid : Nat) (parts : List (List Char)) :
    ∀ t ∈ insertBlocks fid parts, t.file_id = fid := by
  intro t ht
  obtain ⟨ib, _, rfl⟩ := List.mem_map.mp ht
  rfl

/-- Filtering the fresh blocks by their own file id is the identity. -/
theorem insertBlocks_filter_self (fid : Nat) (parts : List (List Char)) :
    (insertBlocks fid parts).filter (fun t => t.file_id == fid)
      = insertBlocks fid parts := by
  apply List.filter_eq_self.mpr
  intro t ht
  simp [insertBlocks_file_id fid parts t ht]

/-- At most as many blocks as input parts are inserted. -/
theorem insertBlocks_length_le (fid : Nat) (parts : List (List Char)) :
    (insertBlocks fid parts).length ≤ parts.length := by
  unfold insertBlocks
  rw [List.length_map]
  calc (parts.enum.filter (fun ib => ib.2 ≠ [])).length
      ≤ parts.enum.length := List.length_filter_le _ _
    _ = parts.length := List.enum_length

/-- Every inserted block is capped at 5000 characters. -/
theorem insertBlocks_text_le (fid : Nat) (parts : List (List Char)) :
    ∀ t ∈ insertBlocks fid parts, t.text.length ≤ 5000 := by
  intro t ht
  obtain ⟨ib, _, rfl⟩ := List.mem_map.mp ht
  simpa using min_le_left 5000 ib.2.length

/-- C9: whenever `index_file` succeeds (`(True, 'indexed')`), the block
set stored for that file is exactly the freshly extracted blocks — all
prior blocks gone, at most 10 blocks, each at most 5000 characters —
given the schema invariant that every text row belongs to some file
row. -/
theorem textBlocks_replaced (H : Bytes → String) (cat : Catalog) (f : FsFile)
    (force : Bool) (now : String)
    (hinv : ∀ t ∈ cat.texts, ∃ r ∈ cat.files, t.file_id = r.id)
    (hrun : (indexFile H cat f force now).2 = (true, "indexed")) :
    ∃ fid r, ((indexFile H cat f force now).1).lookupPath f.path = some r ∧ r.id = fid ∧
      ((indexFile H cat f force now).1).texts.filter (fun t => t.file_id == fid)
        = insertBlocks fid (f.parts.take 10) ∧
      (((indexFile H cat f force now).1).texts.filter (fun t => t.file_id == fid)).length ≤ 10 ∧
      (∀ t ∈ ((indexFile H cat f force now).1).texts,
        t.file_id = fid → t.text.length ≤ 5000) := by
  cases hstat : f.stat with
  | none => rw [indexFile, hstat] at hrun; cases hrun
  | some szmt =>
      obtain ⟨sz, mt⟩ := szmt
      cases hskip : shouldSkip (cat.lookupPath f.path) force sz mt with
      | true =>
          rw [indexFile, hstat] at hrun
          simp [hskip] at hrun
      | false =>
          have hlen10 : (f.parts.take 10).length ≤ 10 := by
            simpa using min_le_left 10 f.parts.length
          cases hrow : cat.lookupPath f.path with
          | none =>
              rw [indexFile_insert H cat f force now sz mt hstat hskip hrow]
              set fid := freshId cat.files with hfid
              have hold : ∀ t ∈ cat.texts, (t.file_id == fid) = false := by
                intro t ht
                obtain ⟨r, hr, hid⟩ := hinv t ht
                have hle := le_foldr_max (cat.files.map (fun x : FileRow => x.id)) r.id
                  (List.mem_map_of_mem (fun x : FileRow => x.id) hr)
                simp only [beq_eq_false_iff_ne, hid, hfid, freshId, ne_eq]
                omega
              have hfilter : (cat.texts ++ insertBlocks fid (f.parts.take 10)).filter
                  (fun t => t.file_id == fid) = insertBlocks fid (f.parts.take 10) := by
                rw [List.filter_append, List.filter_eq_nil_iff.mpr
                  (fun t ht => by simp [hold t ht]), insertBlocks_filter_self]
                rfl
              refine ⟨fid, ⟨fid, f.path, f.relpath, sz, mt, file_sha256 H f.content,
                (metaPair f).1, (metaPair f).2, if f.needs_ocr then 1 else 0, now⟩,
                ?_, rfl, ?_, ?_, ?_⟩
              · unfold Catalog.lookupPath at hrow ⊢
                rw [List.find?_append, hrow]
                simp
              · exact hfilter
              · rw [hfilter]
                exact le_trans (insertBlocks_length_le _ _) hlen10
              · intro t ht hid
                rcases List.mem_append.mp ht with h | h
                · exact absurd (by simpa using hid) (by simpa using hold t h)
                · exact insertBlocks_text_le _ _ t h
          | some r =>
              rw [indexFile_update H cat f force now sz mt r hstat hskip hrow]
              have hpath : ∀ x ∈ cat.files,
                  ((fun y : FileRow => y.path == f.path) (updateRow f H now sz mt r.id x))
                    = ((fun y : FileRow => y.path == f.path) x) := by
                intro x _
                simp [updateRow_path]
              have hfilter : ((cat.texts.filter (fun t => t.file_id ≠ r.id))
                    ++ insertBlocks r.id (f.parts.take 10)).filter
                  (fun t => t.file_id == r.id) = insertBlocks r.id (f.parts.take 10) := by
                rw [List.filter_append, insertBlocks_filter_self]
                have : (cat.texts.filter (fun t => t.file_id ≠ r.id)).filter
                    (fun t => t.file_id == r.id) = [] := by
                  apply List.filter_eq_nil_iff.mpr
                  intro t ht
                  have := List.of_mem_filter ht
                  simp only [decide_eq_true_eq] at this
                  simp [this]
                rw [this]
                rfl
              refine ⟨r.id, updateRow f H now sz mt r.id r, ?_, updateRow_id .., ?_, ?_, ?_⟩
              · unfold Catalog.lookupPath at hrow ⊢
                rw [find?_map_of_pred _ _ _ hpath, hrow]
                rfl
              · exact hfilter
              · rw [hfilter]
                exact le_trans (insertBlocks_length_le _ _) hlen10
              · intro t ht hid
                rcases List.mem_append.mp ht with h | h
                · have := List.of_mem_filter h
                  simp only [decide_eq_true_eq] at this
                  exact absurd hid this
                · exact insertBlocks_text_le _ _ t h

/-! ## Hash-failure handling -/

/-- C4 (amended): when the fingerprint computation fails (the byte
stream is unreadable, `file_sha256` yields `None`) and the file is not
skipped, `index_file` does not abort: it still returns the success
result `(True, 'indexed')` — the run counts the file as indexed, not as
failed — and records the row with a null fingerprint while keeping the
extracted title/authors. -/
theorem nullFingerprint_nonfatal (H : Bytes → String) (cat : Catalog) (f : FsFile)
    (now : String) (sz : Nat) (mt : ℚ)
    (hstat : f.stat = some (sz, mt))
    (hread : f.content = none)
    (hnoskip : shouldSkip (cat.lookupPath f.path) false sz mt = false) :
    (indexFile H cat f false now).2 = (true, "indexed") ∧
    ∃ r, ((indexFile H cat f false now).1).lookupPath f.path = some r ∧
      r.sha256 = none ∧ r.title = (metaPair f).1 ∧ r.authors = (metaPair f).2 := by
  obtain ⟨r, hlook, hres, _, _, hsha, htitle, hauth⟩ :=
    indexFile_processed H cat f false now sz mt hstat hnoskip
  refine ⟨hres, r, hlook, ?_, htitle, hauth⟩
  rw [hsha, hread]
  rfl

theorem mem_insertSorted (r x : FileRow) (l : List FileRow) :
    x ∈ insertSorted r l ↔ x = r ∨ x ∈ l := by
  induction l with
  | nil => simp [insertSorted]
  | cons y ys ih =>
      unfold insertSorted
      split
      · simp
      · simp only [List.mem_cons, ih]
        tauto

theorem mem_orderByPath (x : FileRow) (l : List FileRow) :
    x ∈ orderByPath l ↔ x ∈ l := by
  induction l with
  | nil => simp [orderByPath]
  | cons y ys ih => simp [orderByPath, mem_insertSorted, ih]

/-- A pattern that is just `%` matches everything. -/
theorem likeMatch_percent (ts : List Char) : likeMatch ['%'] ts = true := by
  have h : ∀ us : List Char, us.tails.any (fun suf => likeMatch [] suf) = true := by
    intro us
    induction us with
    | nil => rfl
    | cons t us ih => simp only [List.tails_cons, List.any_cons, ih, Bool.or_true]
  simp only [likeMatch, if_pos rfl]
  exact h ts

/-- On a wildcard-free stem followed by a single trailing `%`, `LIKE`
matching is exactly case-insensitive prefix matching. -/
theorem likeMatch_stem_percent (cs ts : List Char)
    (hw : ∀ c ∈ cs, c ≠ '%' ∧ c ≠ '_') :
    likeMatch (cs ++ ['%']) ts
      = (cs.map Char.toLower).isPrefixOf (ts.map Char.toLower) := by
  induction cs generalizing ts with
  | nil => simp [likeMatch_percent, List.isPrefixOf]
  | cons c cs ih =>
      obtain ⟨hcp, hcu⟩ := hw c (by simp)
      cases ts with
      | nil => simp [likeMatch, hcp, List.isPrefixOf]
      | cons t ts' =>
          simp only [List.cons_append, likeMatch, if_neg hcp, if_neg hcu,
            List.map_cons, List.isPrefixOf, List.append_eq]
          rw [ih ts' (fun d hd => hw d (by simp [hd]))]

/-- Membership in `files_in_folder` is membership in the catalog plus a
`LIKE` match of the path against `folder + os.sep + '%'`. -/
theorem mem_files_in_folder (cat : Catalog) (folder : String) (r : FileRow) :
    r ∈ files_in_folder (some cat) folder ↔
      r ∈ cat.files
        ∧ likeMatch ((folder ++ os_sep) ++ "%").toList r.path.toList = true := by
  unfold files_in_folder
  rw [mem_orderByPath, List.mem_filter]

/-- C8 (amended): `files_in_folder` returns exactly the records whose
path matches the SQL `LIKE` pattern `rootPath + separator + '%'` —
case-insensitive, with `_`/`%` in `rootPath` acting as wildcards.  When
`rootPath` is wildcard-free this is case-insensitive exact-segment
prefix matching, and a record at `/data/foobar` is never returned for
rootPath `/data/foo`. -/
theorem files_in_folder_spec (cat : Catalog) (folder : String) (r : FileRow) :
    (r ∈ files_in_folder (some cat) folder ↔
      r ∈ cat.files
        ∧ likeMatch ((folder ++ os_sep) ++ "%").toList r.path.toList = true)
    ∧ ((∀ c ∈ (folder ++ os_sep).toList, c ≠ '%' ∧ c ≠ '_') →
      (r ∈ files_in_folder (some cat) folder ↔
        r ∈ cat.files
          ∧ ((folder ++ os_sep).toList.map Char.toLower).isPrefixOf
              (r.path.toList.map Char.toLower) = true))
    ∧ (folder = "/data/foo" → r.path = "/data/foobar" →
        r ∉ files_in_folder (some cat) folder) := by
  refine ⟨mem_files_in_folder cat folder r, fun hw => ?_, fun hf hp hmem => ?_⟩
  · rw [mem_files_in_folder cat folder r]
    have hpat : ((folder ++ os_sep) ++ "%").toList
        = (folder ++ os_sep).toList ++ ['%'] :=
      String.data_append (folder ++ os_sep) "%"
    rw [hpat, likeMatch_stem_percent _ _ hw]
  · rw [mem_files_in_folder cat folder r, hf] at hmem
    have : likeMatch (("/data/foo" ++ os_sep) ++ "%").toList ("/data/foobar".toList)
        = false := by decide
    rw [hp] at hmem
    rw [this] at hmem
    cases hmem.2

/-- C10: with no database file, both read helpers return empty results
instead of raising. -/
theorem no_db_empty_results (folder : String) (sha : String) :
    files_in_folder none folder = [] ∧ find_files_by_hash none sha = [] :=
  ⟨rfl, rfl⟩

theorem lookupGroup_add_same (gs : List Group) (h : String) (v : String × Nat) :
    lookupGroup (addToGroups gs h v) h
      = some ((lookupGroup gs h).getD [] ++ [v]) := by
  unfold addToGroups
  split
  · next hany =>
      unfold lookupGroup
      rw [find?_map_of_pred _ _ _ (by intro g _; split <;> rfl)]
      obtain ⟨g, hg, hgh⟩ := List.any_eq_true.mp hany
      cases hfind : gs.find? (fun g => g.1 == h) with
      | none =>
          exact absurd (List.find?_eq_none.mp hfind g hg) (by simp [hgh])
      | some g' =>
          have hkey : (g'.1 == h) = true := by
            have h2 := List.find?_some hfind
            exact h2
          simp only [beq_iff_eq] at hkey
          simp [hkey, hfind]
  · next hany =>
      unfold lookupGroup
      rw [List.find?_append]
      have hnone : gs.find? (fun g => g.1 == h) = none := by
        rw [List.find?_eq_none]
        intro g hg hgh
        exact hany (List.any_eq_true.mpr ⟨g, hg, hgh⟩)
      rw [hnone]
      simp [lookupGroup, hnone]

theorem lookupGroup_add_ne (gs : List Group) (h h' : String) (v : String × Nat)
    (hne : h' ≠ h) :
    lookupGroup (addToGroups gs h v) h' = lookupGroup gs h' := by
  unfold addToGroups
  split
  · unfold lookupGroup
    rw [find?_map_of_pred _ _ _ (by intro g _; split <;> rfl)]
    cases hfind : gs.find? (fun g => g.1 == h') with
    | none => rfl
    | some g' =>
        have hkey : (g'.1 == h') = true := by
          have h2 := List.find?_some hfind
          exact h2
        have hgh : g'.1 ≠ h := by
          simp only [beq_iff_eq] at hkey
          rw [hkey]
          exact hne
        simp [hfind, hgh]
  · unfold lookupGroup
    rw [List.find?_append]
    have hone : ([(h, [v])] : List Group).find? (fun g => g.1 == h') = none := by
      simp only [List.find?_cons, List.find?_nil]
      have : ((h, [v]).1 == h') = false := by
        simp only [beq_eq_false_iff_ne, ne_eq]
        exact fun heq => hne heq.symm
      rw [this]
    rw [hone]
    cases gs.find? (fun g => g.1 == h') <;> rfl

theorem lookupGroup_foldl (es : List Entry) (gs : List Group) (h : String)
    (hne : ∀ e ∈ es, e.fh ≠ some ("")) :
    lookupGroup (es.foldl groupStep gs) h
      = extendGroup (lookupGroup gs h) (groupItems es h) := by
  induction es generalizing gs with
  | nil => simp [groupItems, extendGroup]
  | cons e es ih =>
      rw [List.foldl_cons]
      have ihe := ih (groupStep gs e) (fun x hx => hne x (by simp [hx]))
      cases hfh : e.fh with
      | none =>
          rw [ihe]
          have : groupItems (e :: es) h = groupItems es h := by
            unfold groupItems
            rw [List.filter_cons_of_neg (by simp [hfh])]
          rw [this]
          unfold groupStep
          rw [hfh]
      | some g =>
          have hg : ¬ (g == "") = true := by
            simp only [beq_iff_eq]
            intro habs
            exact hne e (by simp) (by rw [hfh, habs])
          have hstep : groupStep gs e = addToGroups gs g (e.orig, e.sz) := by
            unfold groupStep
            rw [hfh]
            simp [hg]
          by_cases hgh : h = g
          · subst hgh
            rw [ihe, hstep, lookupGroup_add_same]
            have hcons : groupItems (e :: es) h
                = (e.orig, e.sz) :: groupItems es h := by
              unfold groupItems
              rw [List.filter_cons_of_pos (by simp [hfh])]
              rfl
            rw [hcons]
            cases hits : groupItems es h with
            | nil => simp [extendGroup]
            | cons i its => simp [extendGroup]
          · rw [ihe, hstep, lookupGroup_add_ne gs g h (e.orig, e.sz) hgh]
            have : groupItems (e :: es) h = groupItems es h := by
              unfold groupItems
              rw [List.filter_cons_of_neg (by simp [hfh]; exact fun habs => hgh habs.symm)]
            rw [this]

/-- Inserting with `addToGroups` keeps the dict's keys distinct. -/
theorem addToGroups_keys_nodup (gs : List Group) (h : String) (v : String × Nat)
    (hnd : (gs.map (·.1)).Nodup) :
    ((addToGroups gs h v).map (·.1)).Nodup := by
  unfold addToGroups
  split
  · have : (gs.map (fun g : Group => if g.1 == h then (g.1, g.2 ++ [v]) else g)).map (·.1)
        = gs.map (·.1) := by
      rw [List.map_map]
      refine List.map_congr_left (fun g _ => ?_)
      dsimp only [Function.comp]
      split <;> rfl
    rw [this]
    exact hnd
  · next hany =>
      rw [List.map_append]
      refine List.Nodup.append hnd (by simp) ?_
      intro a ha hb
      simp only [List.map_cons, List.map_nil, List.mem_singleton] at hb
      subst hb
      obtain ⟨g, hg, hgh⟩ := List.mem_map.mp ha
      exact hany (List.any_eq_true.mpr ⟨g, hg, by simp [hgh]⟩)

/-- The grouping loop keeps the dict's keys distinct. -/
theorem buildGroups_keys_nodup (es : List Entry) (gs : List Group)
    (hnd : (gs.map (·.1)).Nodup) :
    ((es.foldl groupStep gs).map (·.1)).Nodup := by
  induction es generalizing gs with
  | nil => exact hnd
  | cons e es ih =>
      rw [List.foldl_cons]
      refine ih (groupStep gs e) ?_
      cases hfh : e.fh with
      | none =>
          unfold groupStep
          rw [hfh]
          exact hnd
      | some g =>
          have hstep : groupStep gs e
              = if (g == "") = true then gs
                else addToGroups gs g (e.orig, e.sz) := by
            unfold groupStep
            rw [hfh]
          rw [hstep]
          split
          · exact hnd
          · exact addToGroups_keys_nodup gs g (e.orig, e.sz) hnd

/-- With distinct keys, dict membership coincides with lookup. -/
theorem mem_iff_lookupGroup (gs : List Group) (h : String)
    (its : List (String × Nat)) (hnd : (gs.map (·.1)).Nodup) :
    (h, its) ∈ gs ↔ lookupGroup gs h = some its := by
  induction gs with
  | nil => simp [lookupGroup]
  | cons g gs ih =>
      simp only [List.map_cons, List.nodup_cons] at hnd
      by_cases hgh : g.1 = h
      · have hfind : lookupGroup (g :: gs) h = some g.2 := by
          unfold lookupGroup
          rw [List.find?_cons_of_pos _ (by simp [hgh])]
          rfl
        rw [hfind]
        constructor
        · intro hmem
          rcases List.mem_cons.mp hmem with heq | hmem
          · rw [← heq]
          · exfalso
            exact hnd.1 (hgh ▸ List.mem_map_of_mem (·.1) hmem)
        · intro heq
          have : g = (h, its) := by
            obtain ⟨g1, g2⟩ := g
            simp only at hgh
            simp only [Option.some.injEq] at heq
            rw [hgh, heq]
          rw [this]
          exact List.mem_cons_self _ _
      · have hfind : lookupGroup (g :: gs) h = lookupGroup gs h := by
          unfold lookupGroup
          rw [List.find?_cons_of_neg _ (by simp [hgh])]
        rw [hfind, ← ih hnd.2]
        constructor
        · intro hmem
          rcases List.mem_cons.mp hmem with heq | hmem
          · exact absurd (by rw [← heq] : g.1 = h) hgh
          · exact hmem
        · intro hmem
          exact List.mem_cons_of_mem _ hmem

/-- C5: with well-formed (non-empty-string) fingerprints, the duplicate
dialog's groups are exactly the fingerprint classes of size at least
two: a group for `h` is present iff at least two entries carry `h`, its
members are exactly those entries' `(orig, sz)` pairs in scan order,
and every member of every group comes from an entry with that non-null
fingerprint. -/
theorem groupDuplicates_spec (entries : List Entry) (h : String)
    (items : List (String × Nat))
    (hne : ∀ e ∈ entries, e.fh ≠ some ("")) :
    ((h, items) ∈ dup_groups entries ↔
      items = groupItems entries h ∧ 2 ≤ items.length)
    ∧ (∀ g ∈ dup_groups entries, ∀ v ∈ g.2,
        ∃ e ∈ entries, e.fh = some g.1 ∧ v = (e.orig, e.sz)) := by
  have hnd : ((buildGroups entries).map (·.1)).Nodup :=
    buildGroups_keys_nodup entries [] (by simp)
  have hlook : ∀ h', lookupGroup (buildGroups entries) h'
      = extendGroup none (groupItems entries h') := by
    intro h'
    exact lookupGroup_foldl entries [] h' hne
  have hmem : ∀ h' its', (h', its') ∈ buildGroups entries ↔
      (groupItems entries h' ≠ [] ∧ its' = groupItems entries h') := by
    intro h' its'
    rw [mem_iff_lookupGroup _ _ _ hnd, hlook h']
    cases hits : groupItems entries h' with
    | nil => simp [extendGroup]
    | cons i its =>
        simp only [extendGroup, Option.getD_none, List.nil_append,
          Option.some.injEq, ne_eq, reduceCtorEq, not_false_eq_true, true_and]
        exact eq_comm
  constructor
  · unfold dup_groups
    rw [List.mem_filter, hmem h items]
    constructor
    · rintro ⟨⟨hne', rfl⟩, hlen⟩
      simp only [gt_iff_lt, decide_eq_true_eq] at hlen
      exact ⟨rfl, hlen⟩
    · rintro ⟨rfl, hlen⟩
      refine ⟨⟨?_, rfl⟩, by simpa using hlen⟩
      intro habs
      rw [habs] at hlen
      simp at hlen
  · intro g hg v hv
    have hg' : g ∈ (buildGroups entries).filter (fun g => g.2.length > 1) := hg
    have hgmem : (g.1, g.2) ∈ buildGroups entries :=
      List.mem_of_mem_filter hg'
    rw [hmem g.1 g.2] at hgmem
    rw [hgmem.2] at hv
    unfold groupItems at hv
    obtain ⟨e, he, hev⟩ := List.mem_map.mp hv
    have hefh := List.of_mem_filter he
    simp only [beq_iff_eq] at hefh
    exact ⟨e, List.mem_of_mem_filter he, hefh, hev.symm⟩

/-- C6: a catalog match is reported iff its path differs from the local
path after normalization and case-folding; in particular, when every
catalog row holding the fingerprint is a spelling of the local file
itself, zero matches are returned — a file is never its own
duplicate. -/
theorem resolveCrossCollection_spec (db : Option Catalog) (fh : String)
    (localPath : String) :
    (∀ m, m ∈ remotesFor db fh localPath ↔
      m ∈ find_files_by_hash db fh ∧ normKey m.path ≠ normKey localPath)
    ∧ ((∀ m ∈ find_files_by_hash db fh, normKey m.path = normKey localPath) →
        remotesFor db fh localPath = []) := by
  constructor
  · intro m
    unfold remotesFor
    rw [List.mem_filter]
    simp
  · intro hall
    unfold remotesFor
    apply List.filter_eq_nil_iff.mpr
    intro m hm
    simp [hall m hm]

theorem applyDeletions_removeFails (fs : FileSys) (paths : List String) :
    (applyDeletions fs paths).1.removeFails = fs.removeFails := by
  induction paths generalizing fs with
  | nil => rfl
  | cons p rest ih =>
      unfold applyDeletions
      split
      · split
        · exact ih fs
        · exact ih (removeFile fs p)
      · exact ih fs

theorem applyDeletions_shrink (fs : FileSys) (paths : List String) (q : String) :
    osExists (applyDeletions fs paths).1 q = true → osExists fs q = true := by
  induction paths generalizing fs with
  | nil => exact id
  | cons p rest ih =>
      unfold applyDeletions
      split
      · split
        · exact ih fs
        · intro hq
          have := ih (removeFile fs p) hq
          simp only [osExists, removeFile, decide_eq_true_eq, List.mem_filter] at this ⊢
          exact this.1
      · exact ih fs

/-- The collected errors are exactly the paths that exist and whose
removal fails, judged against the initial filesystem. -/
theorem applyDeletions_errors (fs : FileSys) (paths : List String) :
    (applyDeletions fs paths).2.2
      = paths.filter (fun q => osExists fs q && decide (q ∈ fs.removeFails)) := by
  induction paths generalizing fs with
  | nil => rfl
  | cons p rest ih =>
      unfold applyDeletions
      split
      · next hex =>
          split
          · next hfail =>
              rw [List.filter_cons_of_pos (by simp [hex, hfail])]
              dsimp only
              rw [ih fs]
          · next hfail =>
              rw [List.filter_cons_of_neg (by simp [hex, hfail])]
              dsimp only
              rw [ih (removeFile fs p)]
              apply List.filter_congr
              intro q _
              by_cases hq : q = p
              · subst hq
                simp [osExists, removeFile, hfail]
              · simp only [osExists, removeFile, ne_eq]
                simp [hq]
      · next hex =>
          rw [List.filter_cons_of_neg (by simp [hex])]
          exact ih fs

/-- Deleting only absent paths is a complete no-op. -/
theorem applyDeletions_all_absent (fs : FileSys) (paths : List String)
    (h : ∀ p ∈ paths, osExists fs p = false) :
    applyDeletions fs paths = (fs, 0, []) := by
  induction paths with
  | nil => rfl
  | cons p rest ih =>
      unfold applyDeletions
      rw [if_neg (by rw [h p (by simp)]; exact Bool.false_ne_true)]
      exact ih (fun q hq => h q (by simp [hq]))

/-- After an error-free run, every listed path is gone. -/
theorem applyDeletions_absent_after (fs : FileSys) (paths : List String)
    (herr : (applyDeletions fs paths).2.2 = []) :
    ∀ p ∈ paths, osExists (applyDeletions fs paths).1 p = false := by
  induction paths generalizing fs with
  | nil => intro p hp; cases hp
  | cons q rest ih =>
      intro p hp
      unfold applyDeletions at herr ⊢
      by_cases hex : osExists fs q = true
      · rw [if_pos hex] at herr ⊢
        by_cases hfail : q ∈ fs.removeFails
        · rw [if_pos hfail] at herr
          cases herr
        · rw [if_neg hfail] at herr ⊢
          rcases List.mem_cons.mp hp with heq | hmem
          · subst heq
            cases hafter : osExists (applyDeletions (removeFile fs p) rest).1 p with
            | false => rfl
            | true =>
                have := applyDeletions_shrink (removeFile fs p) rest p hafter
                simp [osExists, removeFile] at this
          · exact ih (removeFile fs q) herr p hmem
      · rw [if_neg hex] at herr ⊢
        rcases List.mem_cons.mp hp with heq | hmem
        · subst heq
          cases hafter : osExists (applyDeletions fs rest).1 p with
          | false => rfl
          | true =>
              have := applyDeletions_shrink fs rest p hafter
              rw [this] at hex
              exact absurd rfl hex
        · exact ih fs herr p hmem

/-- C7: deleting an absent path is a no-op success (no error recorded,
nothing changed); every deletion attempt is independent, with all
failures — exactly the existing paths whose removal raises — collected
and reported together; and re-applying an error-free resolution
reports no failure and changes nothing. -/
theorem applyResolution_spec (fs : FileSys) (p : String)
    (rest paths : List String) (hne : osExists fs p = false) :
    (applyDeletions fs (p :: rest) = applyDeletions fs rest)
    ∧ ((applyDeletions fs paths).2.2
        = paths.filter (fun q => osExists fs q && decide (q ∈ fs.removeFails)))
    ∧ ((applyDeletions fs paths).2.2 = [] →
        applyDeletions (applyDeletions fs paths).1 paths
          = ((applyDeletions fs paths).1, 0, [])) := by
  refine ⟨?_, applyDeletions_errors fs paths, ?_⟩
  · conv_lhs => unfold applyDeletions
    rw [if_neg (by rw [hne]; exact Bool.false_ne_true)]
  · intro herr
    exact applyDeletions_all_absent _ _ (applyDeletions_absent_after fs paths herr)

/-- C1: with an existing record and `forceReindex` false the file is
skipped iff the stored size equals the current size and the
modification-time difference is strictly below 1.0 s; with no prior
record it is processed. -/
theorem shouldSkip_spec (r : FileRow) (size : Nat) (mtime : ℚ) :
    (shouldSkip (some r) false size mtime = true ↔
      r.size = size ∧ |r.mtime - mtime| < 1)
    ∧ shouldSkip none false size mtime = false := by
  constructor
  · simp [shouldSkip]
  · rfl

/-! ## Fingerprint correctness -/

/-- C3: for every readable file the recorded fingerprint is the digest
of the full byte stream, computed by streaming `BUF_SIZE` chunks;
byte-identical streams yield equal fingerprints (the path is not even
an input); and, under the no-collision assumption the spec makes for
SHA-256 on the streams at hand, byte-differing streams yield different
fingerprints. -/
theorem fingerprint_spec (H : Bytes → String) (c1 c2 : Bytes)
    (hcoll : H c1 = H c2 → c1 = c2) :
    file_sha256 H (some c1) = some (H c1)
    ∧ (c1 = c2 → file_sha256 H (some c1) = file_sha256 H (some c2))
    ∧ (c1 ≠ c2 → file_sha256 H (some c1) ≠ file_sha256 H (some c2)) := by
  refine ⟨file_sha256_eq_hash H c1, fun h => by rw [h], fun hne heq => ?_⟩
  rw [file_sha256_eq_hash, file_sha256_eq_hash] at heq
  exact hne (hcoll (Option.some_injective _ heq))

/-! ## Closed witnesses and counterexamples -/

/-- C2 witness: one file, empty catalog — the hypotheses hold and the
second walk is all skips. -/
theorem indexTree_idempotent_witness :
    ((Catalog.mk [] []).WF ∧ (([fsA].map (·.path)).Nodup)
      ∧ (∀ f ∈ [fsA], f.stat.isSome))
    ∧ ((walkAndIndex H0 (walkAndIndex H0 ⟨[], []⟩ [fsA] false ("t1")).1 [fsA] false ("t2")).1
        = (walkAndIndex H0 ⟨[], []⟩ [fsA] false ("t1")).1
      ∧ (walkAndIndex H0 (walkAndIndex H0 ⟨[], []⟩ [fsA] false ("t1")).1 [fsA] false ("t2")).2
        = [fsA].map (fun _ => (false, "skipped"))) :=
  ⟨⟨by decide, by decide, by decide⟩,
   indexTree_idempotent H0 ⟨[], []⟩ [fsA] ("t1") ("t2") (by decide) (by decide) (by decide)⟩

/-- C3 witness: a digest function separating the two concrete streams
discharges the no-collision hypothesis. -/
theorem fingerprint_spec_witness :
    (Hcount [0] = Hcount [1, 2] → ([0] : Bytes) = [1, 2])
    ∧ (file_sha256 Hcount (some [0]) = some (Hcount [0])
      ∧ (([0] : Bytes) = [1, 2] →
          file_sha256 Hcount (some [0]) = file_sha256 Hcount (some [1, 2]))
      ∧ (([0] : Bytes) ≠ [1, 2] →
          file_sha256 Hcount (some [0]) ≠ file_sha256 Hcount (some [1, 2]))) :=
  ⟨by decide, fingerprint_spec Hcount [0] [1, 2] (by decide)⟩

/-- C4 counterexample: hashing fails for `fsC4`, yet `index_file`
returns the success result `(True, 'indexed')` — the file is counted as
indexed, not as failed — while recording a null fingerprint. -/
theorem hashFailure_counted_indexed :
    (indexFile H0 ⟨[], []⟩ fsC4 false ("t0")).2 = (true, "indexed")
    ∧ ((indexFile H0 ⟨[], []⟩ fsC4 false ("t0")).1).lookupPath ("/lib/a.pdf")
      = some ⟨1, "/lib/a.pdf", "a.pdf", 7, 100, none, some ("T"), none, 0, "t0"⟩ := by
  constructor
  · decide
  · decide

/-- C4 witness (amended claim). -/
theorem nullFingerprint_nonfatal_witness :
    (fsC4.stat = some (7, 100) ∧ fsC4.content = none
      ∧ shouldSkip ((Catalog.mk [] []).lookupPath fsC4.path) false 7 100 = false)
    ∧ ((indexFile H0 ⟨[], []⟩ fsC4 false ("t0")).2 = (true, "indexed")
      ∧ ∃ r, ((indexFile H0 ⟨[], []⟩ fsC4 false ("t0")).1).lookupPath fsC4.path = some r
        ∧ r.sha256 = none ∧ r.title = (metaPair fsC4).1 ∧ r.authors = (metaPair fsC4).2) :=
  ⟨⟨rfl, rfl, by decide⟩,
   nullFingerprint_nonfatal H0 ⟨[], []⟩ fsC4 ("t0") 7 100 rfl rfl (by decide)⟩

/-- C5 witness: fingerprints {h1, h1, h2} — the group for `h1` is
exactly {A, B}. -/
theorem groupDuplicates_spec_witness :
    (∀ e ∈ [eA, eB, eC], e.fh ≠ some (""))
    ∧ ((("h1", [("/d/A", 1), ("/d/B", 2)]) ∈ dup_groups [eA, eB, eC] ↔
        [("/d/A", 1), ("/d/B", 2)] = groupItems [eA, eB, eC] "h1"
          ∧ 2 ≤ ([("/d/A", 1), ("/d/B", 2)] : List (String × Nat)).length)
      ∧ (∀ g ∈ dup_groups [eA, eB, eC], ∀ v ∈ g.2,
          ∃ e ∈ [eA, eB, eC], e.fh = some g.1 ∧ v = (e.orig, e.sz))) :=
  ⟨by decide,
   groupDuplicates_spec [eA, eB, eC] "h1" [("/d/A", 1), ("/d/B", 2)] (by decide)⟩

/-- C6 witness: the reference copy of the local file, spelled with a
doubled separator, is excluded — zero matches for the self-query. -/
theorem resolveCrossCollection_spec_witness :
    (∀ m ∈ find_files_by_hash (some catR) "h1",
        normKey m.path = normKey ("/R/Books/./a.txt"))
    ∧ ((∀ m, m ∈ remotesFor (some catR) "h1" "/R/Books/./a.txt" ↔
        m ∈ find_files_by_hash (some catR) "h1"
          ∧ normKey m.path ≠ normKey ("/R/Books/./a.txt"))
      ∧ ((∀ m ∈ find_files_by_hash (some catR) "h1",
            normKey m.path = normKey ("/R/Books/./a.txt")) →
          remotesFor (some catR) "h1" "/R/Books/./a.txt" = [])) :=
  ⟨by decide, resolveCrossCollection_spec (some catR) "h1" "/R/Books/./a.txt"⟩

/-- C7 witness: an absent path is skipped without error; errors and
re-application behave as stated on a one-file filesystem. -/
theorem applyResolution_spec_witness :
    (osExists fs7 ("/d/gone") = false)
    ∧ ((applyDeletions fs7 ("/d/gone" :: ["/d/b"]) = applyDeletions fs7 ["/d/b"])
      ∧ ((applyDeletions fs7 ["/d/x"]).2.2
          = ["/d/x"].filter (fun q => osExists fs7 q && decide (q ∈ fs7.removeFails)))
      ∧ ((applyDeletions fs7 ["/d/x"]).2.2 = [] →
          applyDeletions (applyDeletions fs7 ["/d/x"]).1 ["/d/x"]
            = ((applyDeletions fs7 ["/d/x"]).1, 0, []))) :=
  ⟨by decide, applyResolution_spec fs7 ("/d/gone") ["/d/b"] ["/d/x"] (by decide)⟩

/-- C8 counterexample: for rootPath `/data/f_o` the query returns the
record at `/data/fXo/a` — the `_` acts as a SQL wildcard — although
that path does not start with `/data/f_o/`. -/
theorem files_in_folder_counterexample :
    rowW ∈ files_in_folder (some catW) "/data/f_o"
    ∧ (("/data/f_o" ++ os_sep).toList).isPrefixOf rowW.path.toList = false := by
  constructor
  · decide
  · decide

/-- C8 witness (amended claim) on a wildcard-free rootPath. -/
theorem files_in_folder_spec_witness :
    (∀ c ∈ ("/data/foo" ++ os_sep).toList, c ≠ '%' ∧ c ≠ '_')
    ∧ ((rowF ∈ files_in_folder (some catF) "/data/foo" ↔
        rowF ∈ catF.files
          ∧ likeMatch (("/data/foo" ++ os_sep) ++ "%").toList rowF.path.toList = true)
      ∧ ((∀ c ∈ ("/data/foo" ++ os_sep).toList, c ≠ '%' ∧ c ≠ '_') →
        (rowF ∈ files_in_folder (some catF) "/data/foo" ↔
          rowF ∈ catF.files
            ∧ (("/data/foo" ++ os_sep).toList.map Char.toLower).isPrefixOf
                (rowF.path.toList.map Char.toLower) = true))
      ∧ ("/data/foo" = "/data/foo" → rowF.path = "/data/foobar" →
          rowF ∉ files_in_folder (some catF) "/data/foo")) :=
  ⟨by decide, files_in_folder_spec catF ("/data/foo") rowF⟩

/-- C9 witness: indexing `fs9` into an empty catalog stores exactly its
two non-empty blocks. -/
theorem textBlocks_replaced_witness :
    ((∀ t ∈ (Catalog.mk [] []).texts, ∃ r ∈ (Catalog.mk [] []).files, t.file_id = r.id)
      ∧ (indexFile H0 ⟨[], []⟩ fs9 false ("t0")).2 = (true, "indexed"))
    ∧ (∃ fid r, ((indexFile H0 ⟨[], []⟩ fs9 false ("t0")).1).lookupPath fs9.path = some r
        ∧ r.id = fid
        ∧ ((indexFile H0 ⟨[], []⟩ fs9 false ("t0")).1).texts.filter
            (fun t => t.file_id == fid) = insertBlocks fid (fs9.parts.take 10)
        ∧ (((indexFile H0 ⟨[], []⟩ fs9 false ("t0")).1).texts.filter
            (fun t => t.file_id == fid)).length ≤ 10
        ∧ (∀ t ∈ ((indexFile H0 ⟨[], []⟩ fs9 false ("t0")).1).texts,
            t.file_id = fid → t.text.length ≤ 5000)) :=
  ⟨⟨by decide, by decide⟩,
   textBlocks_replaced H0 ⟨[], []⟩ fs9 false ("t0") (by decide) (by decide)⟩

end RenameArchive
